import Mathlib

/-!
Shallow embedding of `src/main.py` (a news-polling bot): link and title
normalization, keyword matching, timestamp parsing, the seen-link store and
the RSS/TikTok collection passes, together with proofs of the specification
claims about them.

Strings are modelled as lists of Unicode code points (`List Char`), matching
Python `str` semantics for the operations used.  Timestamps are modelled as
rational epoch seconds together with a fixed-offset timezone tag.
-/

namespace Miza

abbrev Str := List Char

/-- Whitespace characters removed by Python `str.strip()` (the ASCII set:
space, tab, newline, carriage return, vertical tab, form feed). -/
def isSpaceCh (c : Char) : Bool :=
  c.toNat = 32 || c.toNat = 9 || c.toNat = 10 || c.toNat = 13 || c.toNat = 11 || c.toNat = 12

def lstrip (l : Str) : Str := l.dropWhile isSpaceCh

def rstrip (l : Str) : Str := (l.reverse.dropWhile isSpaceCh).reverse

/-- Python `str.strip()`: remove leading and trailing whitespace. -/
def pstrip (l : Str) : Str := rstrip (lstrip l)

/-!
Section: The tracking-parameter regex of `normalize_link`

`normalize_link(url)` is `re.sub(r"(&utm_[^=]+=[^&]+)", "", url).strip()`.
The pattern is deterministic: after the literal `&utm_`, `[^=]+` consumes the
maximal run of non-`=` characters (backtracking cannot help since the
following token is the literal `=`), then `[^&]+` consumes a nonempty maximal
run of non-`&` characters.  `re.sub` scans left to right, removing each
non-overlapping match and resuming after it.
-/

/-- Match a literal character sequence at the head of a string, returning
the remainder. -/
def dropLit : Str → Str → Option Str
  | [], t => some t
  | _ :: _, [] => none
  | p :: ps, c :: ts => if c = p then dropLit ps ts else none

/-- The `[^&]` character class: `d != '&'`. -/
def neAmp (d : Char) : Bool := d != '&'

/-- Scan `[^=]*=` after at least one non-`=` character has been consumed:
find the first `=` and return the suffix after it. -/
def scanKeyAux : Str → Option Str
  | [] => none
  | c :: cs => if c = '=' then some cs else scanKeyAux cs

/-- The `[^=]+=` part of the pattern: requires a nonempty non-`=` run, then
the first `=`; returns the suffix after the `=`. -/
def scanKey : Str → Option Str
  | [] => none
  | c :: cs => if c = '=' then none else scanKeyAux cs

/-- The `[^&]+` part: requires a nonempty non-`&` run and returns the suffix
from the first `&` on (or `[]` when the run reaches the end). -/
def scanVal : Str → Option Str
  | [] => none
  | c :: cs => if c = '&' then none else some ((c :: cs).dropWhile neAmp)

def utmLit : Str := ['&', 'u', 't', 'm', '_']

/-- Attempt to match `&utm_[^=]+=[^&]+` at the head of `s`; on success return
the remainder of the string after the match. -/
def utmMatchAt (s : Str) : Option Str :=
  (dropLit utmLit s).bind fun rest => (scanKey rest).bind scanVal

/-- Fuelled left-to-right `re.sub` scanner: at each position, remove a match
if one starts here, otherwise keep the character and advance. -/
def subUtmGo : Nat → Str → Str
  | _, [] => []
  | 0, l => l
  | f + 1, c :: cs =>
    match utmMatchAt (c :: cs) with
    | some rest => subUtmGo f rest
    | none => c :: subUtmGo f cs

/-- The substitution `re.sub(r"(&utm_[^=]+=[^&]+)", "", s)`. -/
def subUtm (s : Str) : Str := subUtmGo s.length s

/-- Function `normalize_link` from `src/main.py`: strip `&utm_...=...` tracking
parameters, then strip surrounding whitespace. -/
def normalize_link (url : Str) : Str := pstrip (subUtm url)

/-! #### Decomposition lemmas for the matcher -/

theorem dropLit_some : ∀ {lit s r : Str}, dropLit lit s = some r → s = lit ++ r := by
  intro lit
  induction lit with
  | nil => intro s r h; simp [dropLit] at h; simpa using h
  | cons p ps ih =>
    intro s r h
    cases s with
    | nil => simp [dropLit] at h
    | cons c ts =>
      by_cases hc : c = p
      · subst hc
        simp only [dropLit, if_pos rfl] at h
        simpa using ih h
      · simp [dropLit, hc] at h

theorem scanKeyAux_some : ∀ {l r : Str}, scanKeyAux l = some r →
    ∃ k, l = k ++ '=' :: r ∧ '=' ∉ k := by
  intro l
  induction l with
  | nil => intro r h; simp [scanKeyAux] at h
  | cons c cs ih =>
    intro r h
    by_cases hc : c = '='
    · subst hc
      simp [scanKeyAux] at h
      exact ⟨[], by simp [h], by simp⟩
    · simp only [scanKeyAux, if_neg hc] at h
      obtain ⟨k, hk, hmem⟩ := ih h
      exact ⟨c :: k, by simp [hk], by simp [hmem, Ne.symm, hc]⟩

theorem scanKey_some : ∀ {l r : Str}, scanKey l = some r →
    ∃ k, k ≠ [] ∧ '=' ∉ k ∧ l = k ++ '=' :: r := by
  intro l r h
  cases l with
  | nil => simp [scanKey] at h
  | cons c cs =>
    by_cases hc : c = '='
    · simp [scanKey, hc] at h
    · simp only [scanKey, if_neg hc] at h
      obtain ⟨k, hk, hmem⟩ := scanKeyAux_some h
      exact ⟨c :: k, by simp, by simp [hmem, Ne.symm, hc], by simp [hk]⟩

theorem scanVal_some : ∀ {l r : Str}, scanVal l = some r →
    l ≠ [] ∧ r = l.dropWhile neAmp := by
  intro l r h
  cases l with
  | nil => simp [scanVal] at h
  | cons c cs =>
    by_cases hc : c = '&'
    · simp [scanVal, hc] at h
    · simp only [scanVal, if_neg hc, Option.some.injEq] at h
      exact ⟨by simp, h.symm⟩

theorem length_dropWhile_le (p : Char → Bool) : ∀ l : Str, (l.dropWhile p).length ≤ l.length := by
  intro l
  induction l with
  | nil => simp
  | cons c cs ih =>
    by_cases hc : p c = true
    · rw [List.dropWhile_cons, if_pos hc]
      exact le_trans ih (by simp)
    · rw [List.dropWhile_cons, if_neg hc]

theorem utmMatchAt_shrink : ∀ {s r : Str}, utmMatchAt s = some r → r.length < s.length := by
  intro s r h
  unfold utmMatchAt at h
  cases hd : dropLit utmLit s with
  | none => rw [hd] at h; simp at h
  | some rest =>
    rw [hd] at h
    simp only [Option.some_bind] at h
    cases hk : scanKey rest with
    | none => rw [hk] at h; simp at h
    | some r3 =>
      rw [hk] at h
      simp only [Option.some_bind] at h
      have hs := dropLit_some hd
      obtain ⟨k, hkne, -, hrest⟩ := scanKey_some hk
      obtain ⟨hr3ne, hr⟩ := scanVal_some h
      have h1 : r.length ≤ r3.length := hr ▸ length_dropWhile_le neAmp r3
      have h2 : rest.length = k.length + 1 + r3.length := by
        simp [hrest]; omega
      have h3 : s.length = 5 + rest.length := by
        simp [hs, utmLit]
        omega
      have h4 : 1 ≤ k.length := by
        cases k with
        | nil => exact absurd rfl hkne
        | cons _ _ => simp
      omega

/-! #### Unfolding equations of `subUtm` -/

theorem subUtmGo_fuel : ∀ f : Nat, ∀ s : Str, s.length ≤ f → subUtmGo f s = subUtm s := by
  intro f
  induction f using Nat.strong_induction_on with
  | _ f ih =>
    intro s hs
    cases s with
    | nil => cases f <;> simp [subUtm, subUtmGo]
    | cons c cs =>
      cases f with
      | zero => simp at hs
      | succ f' =>
        have hs' : cs.length ≤ f' := by simp at hs; omega
        show subUtmGo (f' + 1) (c :: cs) = subUtmGo (c :: cs).length (c :: cs)
        simp only [List.length_cons]
        cases hm : utmMatchAt (c :: cs) with
        | some rest =>
          simp only [subUtmGo, hm]
          have hlen : rest.length < cs.length + 1 := by
            have := utmMatchAt_shrink hm
            simp at this
            omega
          have e1 : subUtmGo f' rest = subUtm rest :=
            ih f' (Nat.lt_succ_self f') rest (by omega)
          have e2 : subUtmGo cs.length rest = subUtm rest :=
            ih cs.length (by omega) rest (by omega)
          rw [e1, e2]
        | none =>
          simp only [subUtmGo, hm]
          have e1 : subUtmGo f' cs = subUtm cs :=
            ih f' (Nat.lt_succ_self f') cs hs'
          rw [e1]
          rfl

theorem subUtm_nil : subUtm [] = [] := rfl

theorem subUtm_cons_some {c : Char} {cs r : Str} (h : utmMatchAt (c :: cs) = some r) :
    subUtm (c :: cs) = subUtm r := by
  show subUtmGo (cs.length + 1) (c :: cs) = subUtm r
  simp only [subUtmGo, h]
  have hlen := utmMatchAt_shrink h
  simp at hlen
  exact subUtmGo_fuel cs.length r (by omega)

theorem subUtm_cons_none {c : Char} {cs : Str} (h : utmMatchAt (c :: cs) = none) :
    subUtm (c :: cs) = c :: subUtm cs := by
  show subUtmGo (cs.length + 1) (c :: cs) = c :: subUtm cs
  simp only [subUtmGo, h]
  rfl

/-! #### Shape lemmas used for idempotence -/

def utm4 : Str := ['u', 't', 'm', '_']

theorem utmMatchAt_amp (X : Str) :
    utmMatchAt ('&' :: X) = (dropLit utm4 X).bind fun rest => (scanKey rest).bind scanVal := by
  simp [utmMatchAt, utmLit, utm4, dropLit]

theorem utmMatchAt_ne_amp {c : Char} (hc : c ≠ '&') (l : Str) : utmMatchAt (c :: l) = none := by
  simp [utmMatchAt, utmLit, dropLit, hc]

theorem subUtm_cons_ne {c : Char} (hc : c ≠ '&') (cs : Str) :
    subUtm (c :: cs) = c :: subUtm cs :=
  subUtm_cons_none (utmMatchAt_ne_amp hc cs)

theorem dropWhile_neAmp_shape : ∀ l : Str,
    l.dropWhile neAmp = [] ∨ ∃ t, l.dropWhile neAmp = '&' :: t := by
  intro l
  induction l with
  | nil => simp
  | cons c cs ih =>
    by_cases hc : c = '&'
    · subst hc
      right
      exact ⟨cs, by simp [List.dropWhile_cons, neAmp]⟩
    · rw [List.dropWhile_cons, if_pos (by simp [neAmp, hc])]
      exact ih

theorem utmMatchAt_rest_shape {s r : Str} (h : utmMatchAt s = some r) :
    r = [] ∨ ∃ t, r = '&' :: t := by
  unfold utmMatchAt at h
  cases hd : dropLit utmLit s with
  | none => rw [hd] at h; simp at h
  | some rest =>
    rw [hd] at h
    simp only [Option.some_bind] at h
    cases hk : scanKey rest with
    | none => rw [hk] at h; simp at h
    | some r3 =>
      rw [hk] at h
      simp only [Option.some_bind] at h
      obtain ⟨-, hr⟩ := scanVal_some h
      rw [hr]
      exact dropWhile_neAmp_shape r3

/-- Head stability: the scanner either empties a string or preserves its
first character (a removed match is always followed by `&` or the end). -/
theorem subUtm_head : ∀ s : Str, subUtm s = [] ∨ (subUtm s).head? = s.head? := by
  intro s
  match s with
  | [] => left; rfl
  | c :: cs =>
    cases hm : utmMatchAt (c :: cs) with
    | some r =>
      rw [subUtm_cons_some hm]
      rcases utmMatchAt_rest_shape hm with hr | ⟨t, ht⟩
      · left; rw [hr]; rfl
      · have hc : c = '&' := by
          by_contra hne
          rw [utmMatchAt_ne_amp hne cs] at hm
          exact Option.noConfusion hm
        rcases subUtm_head r with h | h
        · left; exact h
        · right
          rw [h, ht, hc]
          simp
    | none =>
      right
      rw [subUtm_cons_none hm]
      simp
termination_by s => s.length
decreasing_by
  have := utmMatchAt_shrink hm
  simpa using this

theorem scanKeyAux_eq_none : ∀ {l : Str}, scanKeyAux l = none → '=' ∉ l := by
  intro l
  induction l with
  | nil => simp
  | cons c cs ih =>
    intro h
    by_cases hc : c = '='
    · simp [scanKeyAux, hc] at h
    · simp only [scanKeyAux, if_neg hc] at h
      intro hmem
      rcases List.mem_cons.mp hmem with h1 | h2
      · exact hc h1.symm
      · exact ih h h2

theorem utmMatchAt_has_eq {s r : Str} (h : utmMatchAt s = some r) : '=' ∈ s := by
  unfold utmMatchAt at h
  cases hd : dropLit utmLit s with
  | none => rw [hd] at h; simp at h
  | some rest =>
    rw [hd] at h
    simp only [Option.some_bind] at h
    cases hk : scanKey rest with
    | none => rw [hk] at h; simp at h
    | some r3 =>
      obtain ⟨k, -, -, hrest⟩ := scanKey_some hk
      rw [dropLit_some hd, hrest]
      simp

/-- Strings without `=` contain no match and are fixed by the scanner. -/
theorem subUtm_no_eq : ∀ s : Str, '=' ∉ s → subUtm s = s := by
  intro s hs
  match s with
  | [] => rfl
  | c :: cs =>
    cases hm : utmMatchAt (c :: cs) with
    | some r => exact absurd (utmMatchAt_has_eq hm) hs
    | none =>
      rw [subUtm_cons_none hm]
      have : '=' ∉ cs := fun hmem => hs (List.mem_cons_of_mem c hmem)
      rw [subUtm_no_eq cs this]
termination_by s => s.length
decreasing_by
  simp

theorem scanKeyAux_append {a : Str} (ha : '=' ∉ a) (t : Str) :
    scanKeyAux (a ++ '=' :: t) = some t := by
  induction a with
  | nil => simp [scanKeyAux]
  | cons c cs ih =>
    have hc : c ≠ '=' := fun hc => ha (by simp [hc])
    have hcs : '=' ∉ cs := fun hmem => ha (List.mem_cons_of_mem c hmem)
    simp only [List.cons_append, scanKeyAux, if_neg hc]
    exact ih hcs

theorem scanKey_append {k : Str} (hne : k ≠ []) (hk : '=' ∉ k) (t : Str) :
    scanKey (k ++ '=' :: t) = some t := by
  cases k with
  | nil => exact absurd rfl hne
  | cons c cs =>
    have hc : c ≠ '=' := fun hc => hk (by simp [hc])
    have hcs : '=' ∉ cs := fun hmem => hk (List.mem_cons_of_mem c hmem)
    simp only [List.cons_append, scanKey, if_neg hc]
    exact scanKeyAux_append hcs t

theorem scanVal_eq_none : ∀ {l : Str}, scanVal l = none ↔ l = [] ∨ ∃ t, l = '&' :: t := by
  intro l
  cases l with
  | nil => simp [scanVal]
  | cons c cs =>
    by_cases hc : c = '&'
    · subst hc; simp [scanVal]
    · simp [scanVal, hc]

theorem dropLit_split : ∀ {lit k t r : Str}, '=' ∉ lit → '=' ∉ k →
    dropLit lit (k ++ '=' :: t) = some r → ∃ k₂, k = lit ++ k₂ ∧ r = k₂ ++ '=' :: t ∧ '=' ∉ k₂ := by
  intro lit
  induction lit with
  | nil =>
    intro k t r _ hk h
    simp [dropLit] at h
    exact ⟨k, rfl, h.symm, hk⟩
  | cons p ps ih =>
    intro k t r hlit hk h
    have hp : p ≠ '=' := fun hp => hlit (by simp [hp])
    have hps : '=' ∉ ps := fun hmem => hlit (List.mem_cons_of_mem p hmem)
    cases k with
    | nil =>
      simp only [List.nil_append, dropLit, if_neg (Ne.symm hp)] at h
      exact Option.noConfusion h
    | cons c cs =>
      have hc : c ≠ '=' := fun hc => hk (by simp [hc])
      have hcs : '=' ∉ cs := fun hmem => hk (List.mem_cons_of_mem c hmem)
      by_cases hcp : c = p
      · subst hcp
        simp only [List.cons_append, dropLit, if_pos rfl] at h
        obtain ⟨k₂, hk₂, hr, hk₂mem⟩ := ih hps hcs h
        exact ⟨k₂, by simp [hk₂], hr, hk₂mem⟩
      · simp only [List.cons_append, dropLit, if_neg hcp] at h
        exact Option.noConfusion h

/-- No match can start inside the key segment `k` of a failed tail
`k ++ '=' :: r3` whose value segment is empty, so the scanner walks through
it unchanged. -/
theorem subUtm_glue : ∀ k r3 : Str, '=' ∉ k → scanVal r3 = none →
    subUtm (k ++ '=' :: r3) = k ++ '=' :: subUtm r3 := by
  intro k
  induction k with
  | nil =>
    intro r3 _ _
    simpa using subUtm_cons_ne (by decide) r3
  | cons c k' ih =>
    intro r3 hk hv
    have hc : c ≠ '=' := fun hc => hk (by simp [hc])
    have hk' : '=' ∉ k' := fun hmem => hk (List.mem_cons_of_mem c hmem)
    have hnone : utmMatchAt (c :: (k' ++ '=' :: r3)) = none := by
      by_cases hamp : c = '&'
      · subst hamp
        rw [utmMatchAt_amp]
        cases hd : dropLit utm4 (k' ++ '=' :: r3) with
        | none => rfl
        | some rest =>
          obtain ⟨k₂, hk₂, hrest, hk₂mem⟩ := dropLit_split (by decide) hk' hd
          cases k₂ with
          | nil =>
            rw [hrest]
            simp [scanKey]
          | cons c₂ k₂' =>
            rw [hrest, Option.some_bind, scanKey_append (by simp) hk₂mem, Option.some_bind, hv]
      · exact utmMatchAt_ne_amp hamp _
    rw [List.cons_append, subUtm_cons_none hnone, ih r3 hk' hv]
    simp

/-- A failed literal-prefix test keeps failing on the scanner's output. -/
theorem dropLit_subUtm_none : ∀ lit : Str, '&' ∉ lit → ∀ cs : Str,
    dropLit lit cs = none → dropLit lit (subUtm cs) = none := by
  intro lit
  induction lit with
  | nil =>
    intro _ cs h
    simp [dropLit] at h
  | cons p ps ih =>
    intro hamp cs h
    have hp : p ≠ '&' := fun hp => hamp (by simp [hp])
    have hps : '&' ∉ ps := fun hmem => hamp (List.mem_cons_of_mem p hmem)
    cases cs with
    | nil => rfl
    | cons c cs' =>
      by_cases hcp : c = p
      · subst hcp
        simp only [dropLit, if_pos rfl] at h
        rw [subUtm_cons_ne hp cs']
        simp only [dropLit, if_pos rfl]
        exact ih hps cs' h
      · rcases subUtm_head (c :: cs') with hz | hz
        · rw [hz]; rfl
        · cases hsu : subUtm (c :: cs') with
          | nil => rfl
          | cons d t =>
            have : d = c := by
              rw [hsu] at hz
              simpa using hz
            subst this
            simp only [dropLit, if_neg hcp]

/-- A successful literal-prefix test is preserved by the scanner, which
carries on after the literal. -/
theorem dropLit_subUtm_some : ∀ lit : Str, '&' ∉ lit → ∀ cs rest : Str,
    dropLit lit cs = some rest → dropLit lit (subUtm cs) = some (subUtm rest) := by
  intro lit
  induction lit with
  | nil =>
    intro _ cs rest h
    simp [dropLit] at h
    simp [dropLit, h]
  | cons p ps ih =>
    intro hamp cs rest h
    have hp : p ≠ '&' := fun hp => hamp (by simp [hp])
    have hps : '&' ∉ ps := fun hmem => hamp (List.mem_cons_of_mem p hmem)
    cases cs with
    | nil => simp [dropLit] at h
    | cons c cs' =>
      by_cases hcp : c = p
      · subst hcp
        simp only [dropLit, if_pos rfl] at h
        rw [subUtm_cons_ne hp cs']
        simp only [dropLit, if_pos rfl]
        exact ih hps cs' rest h
      · simp only [dropLit, if_neg hcp] at h
        exact Option.noConfusion h

/-- Key stability lemma: if no match starts at a position, none starts there
after the tail has been rewritten by the scanner. -/
theorem utmMatchAt_stable {c : Char} {cs : Str} (h : utmMatchAt (c :: cs) = none) :
    utmMatchAt (c :: subUtm cs) = none := by
  by_cases hamp : c = '&'
  · subst hamp
    rw [utmMatchAt_amp] at h ⊢
    cases hd : dropLit utm4 cs with
    | none =>
      rw [dropLit_subUtm_none utm4 (by decide) cs hd]
      rfl
    | some rest =>
      rw [dropLit_subUtm_some utm4 (by decide) cs rest hd, Option.some_bind]
      rw [hd, Option.some_bind] at h
      cases hk : scanKey rest with
      | none =>
        cases rest with
        | nil => rfl
        | cons r rs =>
          by_cases hr : r = '='
          · subst hr
            rw [subUtm_cons_ne (by decide) rs]
            simp [scanKey]
          · simp only [scanKey, if_neg hr] at hk
            have hnomem : '=' ∉ (r :: rs) := by
              intro hmem
              rcases List.mem_cons.mp hmem with h1 | h2
              · exact hr h1.symm
              · exact (scanKeyAux_eq_none hk) h2
            rw [subUtm_no_eq (r :: rs) hnomem]
            simp only [scanKey, if_neg hr, hk]
            rfl
      | some r3 =>
        rw [hk, Option.some_bind] at h
        obtain ⟨k, hkne, hkmem, hrest⟩ := scanKey_some hk
        rw [hrest, subUtm_glue k r3 hkmem h, scanKey_append hkne hkmem, Option.some_bind]
        rcases scanVal_eq_none.mp h with h3 | ⟨t, h3⟩
        · rw [h3, subUtm_nil]; rfl
        · rcases subUtm_head r3 with hz | hz
          · rw [hz]; rfl
          · cases hsu : subUtm r3 with
            | nil => rfl
            | cons d u =>
              have : d = '&' := by
                rw [hsu, h3] at hz
                simpa using hz
              subst this
              simp [scanVal]
  · rw [utmMatchAt_ne_amp hamp]

/-- A string is match-free when no position of it starts a match. -/
def matchFreeB : Str → Bool
  | [] => true
  | c :: cs => (utmMatchAt (c :: cs)).isNone && matchFreeB cs

theorem matchFreeB_subUtm : ∀ s : Str, matchFreeB (subUtm s) = true := by
  have H : ∀ n : Nat, ∀ s : Str, s.length ≤ n → matchFreeB (subUtm s) = true := by
    intro n
    induction n using Nat.strong_induction_on with
    | _ n ih =>
      intro s hs
      match s with
      | [] => rfl
      | c :: cs =>
        have hn : n ≠ 0 := by
          intro h0
          rw [h0] at hs
          simp at hs
        cases hm : utmMatchAt (c :: cs) with
        | some r =>
          rw [subUtm_cons_some hm]
          have hr := utmMatchAt_shrink hm
          simp at hr hs
          exact ih (n - 1) (by omega) r (by omega)
        | none =>
          rw [subUtm_cons_none hm]
          show ((utmMatchAt (c :: subUtm cs)).isNone && matchFreeB (subUtm cs)) = true
          simp at hs
          rw [utmMatchAt_stable hm, ih (n - 1) (by omega) cs (by omega)]
          rfl
  exact fun s => H s.length s le_rfl

theorem matchFreeB_cons_iff {c : Char} {cs : Str} :
    matchFreeB (c :: cs) = true ↔ utmMatchAt (c :: cs) = none ∧ matchFreeB cs = true := by
  show ((utmMatchAt (c :: cs)).isNone && matchFreeB cs) = true ↔ _
  rw [Bool.and_eq_true, Option.isNone_iff_eq_none]

theorem subUtm_of_matchFree : ∀ s : Str, matchFreeB s = true → subUtm s = s := by
  intro s
  induction s with
  | nil => intro _; rfl
  | cons c cs ih =>
    intro h
    obtain ⟨h1, h2⟩ := matchFreeB_cons_iff.mp h
    rw [subUtm_cons_none h1, ih h2]

theorem subUtm_idem (s : Str) : subUtm (subUtm s) = subUtm s :=
  subUtm_of_matchFree (subUtm s) (matchFreeB_subUtm s)

/-! #### Interaction of the scanner with `strip` -/

theorem matchFreeB_dropWhile (p : Char → Bool) : ∀ l : Str,
    matchFreeB l = true → matchFreeB (l.dropWhile p) = true := by
  intro l
  induction l with
  | nil => intro h; exact h
  | cons c cs ih =>
    intro h
    by_cases hc : p c = true
    · rw [List.dropWhile_cons, if_pos hc]
      exact ih (matchFreeB_cons_iff.mp h).2
    · rw [List.dropWhile_cons, if_neg hc]
      exact h

theorem dropLit_append {lit s r : Str} (h : dropLit lit s = some r) (w : Str) :
    dropLit lit (s ++ w) = some (r ++ w) := by
  induction lit generalizing s r with
  | nil =>
    simp [dropLit] at h
    simp [dropLit, h]
  | cons p ps ih =>
    cases s with
    | nil => simp [dropLit] at h
    | cons c ts =>
      by_cases hc : c = p
      · subst hc
        simp only [dropLit, if_pos rfl] at h
        simpa [dropLit] using ih h
      · simp [dropLit, hc] at h

theorem scanKeyAux_appendW {s r : Str} (h : scanKeyAux s = some r) (w : Str) :
    scanKeyAux (s ++ w) = some (r ++ w) := by
  induction s generalizing r with
  | nil => simp [scanKeyAux] at h
  | cons c cs ih =>
    by_cases hc : c = '='
    · subst hc
      simp [scanKeyAux] at h
      simp [scanKeyAux, h]
    · simp only [scanKeyAux, if_neg hc] at h
      simpa [scanKeyAux, hc] using ih h

theorem scanKey_appendW {s r : Str} (h : scanKey s = some r) (w : Str) :
    scanKey (s ++ w) = some (r ++ w) := by
  cases s with
  | nil => simp [scanKey] at h
  | cons c cs =>
    by_cases hc : c = '='
    · simp [scanKey, hc] at h
    · simp only [scanKey, if_neg hc] at h
      simpa [scanKey, hc] using scanKeyAux_appendW h w

theorem scanVal_some_shape {l r : Str} (h : scanVal l = some r) :
    ∃ c cs, l = c :: cs ∧ c ≠ '&' := by
  cases l with
  | nil => simp [scanVal] at h
  | cons c cs =>
    by_cases hc : c = '&'
    · simp [scanVal, hc] at h
    · exact ⟨c, cs, rfl, hc⟩

/-- Appending characters cannot destroy a match starting at the head. -/
theorem utmMatchAt_appendW {s r : Str} (h : utmMatchAt s = some r) (w : Str) :
    (utmMatchAt (s ++ w)).isSome = true := by
  unfold utmMatchAt at h ⊢
  cases hd : dropLit utmLit s with
  | none => rw [hd] at h; simp at h
  | some rest =>
    rw [hd, Option.some_bind] at h
    rw [dropLit_append hd w, Option.some_bind]
    cases hk : scanKey rest with
    | none => rw [hk] at h; simp at h
    | some r3 =>
      rw [hk, Option.some_bind] at h
      rw [scanKey_appendW hk w, Option.some_bind]
      obtain ⟨c, cs, hl, hc⟩ := scanVal_some_shape h
      rw [hl]
      simp [scanVal, hc]

/-- Match-freeness is inherited by a string from any extension on the right. -/
theorem matchFreeB_unappend : ∀ u w : Str, matchFreeB (u ++ w) = true → matchFreeB u = true := by
  intro u w
  induction u with
  | nil => intro _; rfl
  | cons c u' ih =>
    intro h
    rw [List.cons_append] at h
    obtain ⟨h1, h2⟩ := matchFreeB_cons_iff.mp h
    rw [matchFreeB_cons_iff]
    refine ⟨?_, ih h2⟩
    cases hm : utmMatchAt (c :: u') with
    | none => rfl
    | some r =>
      have h3 := utmMatchAt_appendW hm w
      rw [List.cons_append, h1] at h3
      simp at h3

theorem rev_split (p : Char → Bool) (m : Str) :
    m.reverse = (m.dropWhile p).reverse ++ (m.takeWhile p).reverse := by
  rw [← List.reverse_append, List.takeWhile_append_dropWhile]

theorem rstrip_decomp (l : Str) :
    l = rstrip l ++ (l.reverse.takeWhile isSpaceCh).reverse := by
  have h := rev_split isSpaceCh l.reverse
  rw [List.reverse_reverse] at h
  exact h

theorem matchFreeB_rstrip {l : Str} (h : matchFreeB l = true) :
    matchFreeB (rstrip l) = true :=
  matchFreeB_unappend (rstrip l) (l.reverse.takeWhile isSpaceCh).reverse
    (by rw [← rstrip_decomp l]; exact h)

theorem matchFreeB_pstrip {l : Str} (h : matchFreeB l = true) :
    matchFreeB (pstrip l) = true :=
  matchFreeB_rstrip (matchFreeB_dropWhile isSpaceCh l h)

/-! #### `strip` is idempotent -/

theorem dropWhile_self_idem (p : Char → Bool) (l : Str) :
    (l.dropWhile p).dropWhile p = l.dropWhile p := by
  induction l with
  | nil => rfl
  | cons c cs ih =>
    by_cases hc : p c = true
    · rw [List.dropWhile_cons, if_pos hc]
      exact ih
    · rw [List.dropWhile_cons, if_neg hc, List.dropWhile_cons, if_neg hc]

theorem rstrip_idem (l : Str) : rstrip (rstrip l) = rstrip l := by
  unfold rstrip
  rw [List.reverse_reverse, dropWhile_self_idem]

theorem rstrip_head {l : Str} {b : Char} {t : Str} (h : rstrip l = b :: t) :
    ∃ w, l = b :: (t ++ w) := by
  refine ⟨(l.reverse.takeWhile isSpaceCh).reverse, ?_⟩
  conv_lhs => rw [rstrip_decomp l]
  rw [h]
  simp

theorem lstrip_fix_of_rstrip {u : Str} (hfix : u.dropWhile isSpaceCh = u) :
    (rstrip u).dropWhile isSpaceCh = rstrip u := by
  cases hr : rstrip u with
  | nil => rfl
  | cons b t =>
    obtain ⟨w, hw⟩ := rstrip_head hr
    have hb : isSpaceCh b = false := by
      cases hbb : isSpaceCh b with
      | false => rfl
      | true =>
        exfalso
        have hstep : u.dropWhile isSpaceCh = (t ++ w).dropWhile isSpaceCh := by
          rw [hw, List.dropWhile_cons, if_pos hbb]
        rw [hfix, hw] at hstep
        have hle := length_dropWhile_le isSpaceCh (t ++ w)
        rw [← hstep] at hle
        simp only [List.length_cons] at hle
        omega
    rw [List.dropWhile_cons, if_neg (by simp [hb])]

theorem pstrip_idem (l : Str) : pstrip (pstrip l) = pstrip l := by
  show rstrip (lstrip (rstrip (lstrip l))) = rstrip (lstrip l)
  have hfix : (lstrip l).dropWhile isSpaceCh = lstrip l := dropWhile_self_idem isSpaceCh l
  have h2 : lstrip (rstrip (lstrip l)) = rstrip (lstrip l) := lstrip_fix_of_rstrip hfix
  rw [h2, rstrip_idem]

/-- Claim C3: `normalize_link` is idempotent: for every link string `L`,
`normalize_link (normalize_link L) = normalize_link L`. -/
theorem c3_normalize_link_idempotent (L : Str) :
    normalize_link (normalize_link L) = normalize_link L := by
  unfold normalize_link
  rw [subUtm_of_matchFree (pstrip (subUtm L)) (matchFreeB_pstrip (matchFreeB_subUtm L)),
    pstrip_idem]

/-- Witness for C3 at a concrete link. -/
theorem c3_witness :
    normalize_link (normalize_link (String.toList "https://x/a&utm_source=y ")) =
      normalize_link (String.toList "https://x/a&utm_source=y ") :=
  c3_normalize_link_idempotent (String.toList "https://x/a&utm_source=y ")

/-!
Section: Title normalization (`normalize_title`)

`title.lower()`, then
`re.sub(r"[^a-z0-9<vietnamese letters> ]", "", ...)`, then
`re.sub(r"\s+", " ", ...)`, then `.strip()`.  After the filter step the only
whitespace character left is the plain space, so the `\s+` collapse is a
collapse of space runs.
-/

/-- The Vietnamese lowercase letters of the allow-list in `normalize_title`
(copied verbatim from the character class in `src/main.py`). -/
def vnLower : Str :=
  String.toList "áàảãạăắằẳẵặâấầẩẫậéèẻẽẹêếềểễệíìỉĩịóòỏõọôốồổỗộơớờởỡợúùủũụưứừửữựýỳỷỹỵđ"

/-- Uppercase forms of `vnLower`, used to model `str.lower()` on the
Vietnamese letters. -/
def vnUpper : Str :=
  String.toList "ÁÀẢÃẠĂẮẰẲẴẶÂẤẦẨẪẬÉÈẺẼẸÊẾỀỂỄỆÍÌỈĨỊÓÒỎÕỌÔỐỒỔỖỘƠỚỜỞỠỢÚÙỦŨỤƯỨỪỬỮỰÝỲỶỸỴĐ"

def vnPairs : List (Char × Char) := vnUpper.zip vnLower

/-- Python `str.lower()` on one character, for the alphabets this program uses:
ASCII letters plus the Vietnamese letters of the allow-list. -/
def lowerCh (c : Char) : Char :=
  if 'A' ≤ c ∧ c ≤ 'Z' then Char.ofNat (c.toNat + 32)
  else
    match vnPairs.find? (fun p => p.1 == c) with
    | some p => p.2
    | none => c

/-- The allow-list `[a-z0-9<vietnamese letters> ]` of `normalize_title`. -/
def allowedTitleChar (c : Char) : Bool :=
  (decide ('a' ≤ c) && decide (c ≤ 'z')) || (decide ('0' ≤ c) && decide (c ≤ '9'))
    || c == ' ' || vnLower.contains c

/-- Collapse runs of spaces to a single space (`re.sub(r"\s+", " ", ...)`
after all other whitespace has been filtered out).  The flag records whether
the previous character was a space. -/
def collapseSpAux : Bool → Str → Str
  | _, [] => []
  | prevSp, c :: cs =>
    if c = ' ' then
      if prevSp then collapseSpAux true cs else ' ' :: collapseSpAux true cs
    else c :: collapseSpAux false cs

/-- Function `normalize_title` from `src/main.py`. -/
def normalize_title (title : Str) : Str :=
  pstrip (collapseSpAux false (List.filter allowedTitleChar (title.map lowerCh)))

/-!
Section: Keyword matchers

`fetch_new_items` uses `re.compile(r"(Miza|MZG|Miza\s*Corp|Giấy\s*Miza)",
re.IGNORECASE).search(title)`; `fetch_tiktok_videos` uses the larger pattern
`(Miza|MZG|Miza\s*Corp|MizaGroup|Giấy\s*Miza|#Miza|#MZG|#MizaCorp|#MizaGroup)`.
Neither pattern contains word boundaries.  Each is an alternation of literals
(with an optional whitespace run inside two branches), so `search` is: at some
position, some branch matches.
-/

/-- Case-insensitive literal match at the head of the text; the pattern is
given in lowercase.  Returns the remaining text after the literal. -/
def matchLitCI : Str → Str → Option Str
  | [], t => some t
  | _ :: _, [] => none
  | p :: ps, c :: ts => if lowerCh c = p then matchLitCI ps ts else none

/-- The `\s*` piece: skip a (possibly empty) whitespace run. -/
def skipWs (l : Str) : Str := l.dropWhile isSpaceCh

/-- Does some branch of the RSS keyword pattern match at this position? -/
def kwAtRss (t : Str) : Bool :=
  (matchLitCI (String.toList "miza") t).isSome
  || (matchLitCI (String.toList "mzg") t).isSome
  || (match matchLitCI (String.toList "miza") t with
      | some r => (matchLitCI (String.toList "corp") (skipWs r)).isSome
      | none => false)
  || (match matchLitCI (String.toList "giấy") t with
      | some r => (matchLitCI (String.toList "miza") (skipWs r)).isSome
      | none => false)

/-- The `keyword_pattern.search` of `fetch_new_items`, as a Boolean. -/
def kwSearchRss : Str → Bool
  | [] => false
  | c :: cs => kwAtRss (c :: cs) || kwSearchRss cs

/-- Does some branch of the TikTok keyword pattern match at this position? -/
def kwAtTiktok (t : Str) : Bool :=
  (matchLitCI (String.toList "miza") t).isSome
  || (matchLitCI (String.toList "mzg") t).isSome
  || (match matchLitCI (String.toList "miza") t with
      | some r => (matchLitCI (String.toList "corp") (skipWs r)).isSome
      | none => false)
  || (matchLitCI (String.toList "mizagroup") t).isSome
  || (match matchLitCI (String.toList "giấy") t with
      | some r => (matchLitCI (String.toList "miza") (skipWs r)).isSome
      | none => false)
  || (matchLitCI (String.toList "#miza") t).isSome
  || (matchLitCI (String.toList "#mzg") t).isSome
  || (matchLitCI (String.toList "#mizacorp") t).isSome
  || (matchLitCI (String.toList "#mizagroup") t).isSome

/-- The `keyword_pattern.search` of `fetch_tiktok_videos`, as a Boolean. -/
def kwSearchTiktok : Str → Bool
  | [] => false
  | c :: cs => kwAtTiktok (c :: cs) || kwSearchTiktok cs

/-!
Section: The specification's word-boundary matcher

The spec requires word-boundary-delimited matching (no alias may match as a
proper substring of a longer word).  The following definitions follow the
spec's words — `\b(alternation)\b` with the same alias set — and exist only
to be compared with the implemented `kwSearchRss`.
-/

/-- Word characters `\w` (letters, digits, underscore; including the
Vietnamese letters used by this program). -/
def isWordCh (c : Char) : Bool :=
  (decide ('a' ≤ c) && decide (c ≤ 'z')) || (decide ('A' ≤ c) && decide (c ≤ 'Z'))
    || (decide ('0' ≤ c) && decide (c ≤ '9')) || c == '_'
    || vnLower.contains c || vnUpper.contains c

/-- A word boundary holds against this neighbouring character (or the
text edge). -/
def boundaryOk : Option Char → Bool
  | none => true
  | some c => !(isWordCh c)

/-- One position of the spec's word-boundary matcher: some branch matches
here with a word boundary on both sides. -/
def kwAtRssWB (prev : Option Char) (t : Str) : Bool :=
  (match matchLitCI (String.toList "miza") t with
   | some r => boundaryOk prev && boundaryOk r.head?
   | none => false)
  || (match matchLitCI (String.toList "mzg") t with
      | some r => boundaryOk prev && boundaryOk r.head?
      | none => false)
  || (match matchLitCI (String.toList "miza") t with
      | some r =>
        match matchLitCI (String.toList "corp") (skipWs r) with
        | some r2 => boundaryOk prev && boundaryOk r2.head?
        | none => false
      | none => false)
  || (match matchLitCI (String.toList "giấy") t with
      | some r =>
        match matchLitCI (String.toList "miza") (skipWs r) with
        | some r2 => boundaryOk prev && boundaryOk r2.head?
        | none => false
      | none => false)

def kwSearchRssWBAux : Option Char → Str → Bool
  | _, [] => false
  | prev, c :: cs => kwAtRssWB prev (c :: cs) || kwSearchRssWBAux (some c) cs

/-- The keyword matcher as the specification describes it
(word-boundary-delimited), for comparison with `kwSearchRss`. -/
def kwSearchRssSpecWB (t : Str) : Bool := kwSearchRssWBAux none t

/-!
Section: Timestamps: `parse_date` and the `datetime` constructor

`parse_date(entry)` builds `datetime(*entry.published_parsed[:6],
tzinfo=pytz.utc)` (falling back to `updated_parsed`, then to
`datetime.now`), converts to `Asia/Ho_Chi_Minh` (UTC+7), and on any
exception returns `datetime.now(VN_TZ)`.  The `datetime` constructor raises
`ValueError` on out-of-range fields; we model it as an `Option` over
rational epoch seconds (proleptic Gregorian calendar).
-/

def isLeap (y : Nat) : Bool := (y % 4 == 0 && y % 100 != 0) || y % 400 == 0

def daysInMonth (y m : Nat) : Nat :=
  if m = 1 then 31 else if m = 2 then (if isLeap y then 29 else 28)
  else if m = 3 then 31 else if m = 4 then 30 else if m = 5 then 31
  else if m = 6 then 30 else if m = 7 then 31 else if m = 8 then 31
  else if m = 9 then 30 else if m = 10 then 31 else if m = 11 then 30
  else if m = 12 then 31 else 0

def daysBeforeMonth (y m : Nat) : Nat :=
  (List.range (m - 1)).foldl (fun a i => a + daysInMonth y (i + 1)) 0

/-- The first six fields of a `time.struct_time`. -/
structure TimeTuple where
  year : Int
  month : Int
  day : Int
  hour : Int
  minute : Int
  second : Int
deriving DecidableEq

/-- The constructor `datetime(year, month, day, hour, minute, second, tzinfo=pytz.utc)`:
`none` when the constructor raises `ValueError`; otherwise the epoch seconds
of the instant (feed timestamps have whole-second precision). -/
def mkUtc (t : TimeTuple) : Option Int :=
  if 1 ≤ t.year ∧ t.year ≤ 9999 ∧ 1 ≤ t.month ∧ t.month ≤ 12 ∧ 1 ≤ t.day
      ∧ t.day ≤ (daysInMonth t.year.toNat t.month.toNat : Int)
      ∧ 0 ≤ t.hour ∧ t.hour ≤ 23 ∧ 0 ≤ t.minute ∧ t.minute ≤ 59
      ∧ 0 ≤ t.second ∧ t.second ≤ 59 then
    let y := t.year.toNat
    let m := t.month.toNat
    let d := t.day.toNat
    let days : Int :=
      ((y - 1) * 365 + (y - 1) / 4 - (y - 1) / 100 + (y - 1) / 400
        + daysBeforeMonth y m + (d - 1) : Nat) - 719162
    some (days * 86400 + t.hour * 3600 + t.minute * 60 + t.second)
  else none

/-- An aware datetime: the absolute instant (epoch seconds) plus the UTC
offset, in minutes, of the timezone it is expressed in.  `astimezone` keeps
the epoch and changes the offset; comparison and subtraction use the epoch
only. -/
structure PDateTime where
  epoch : Int
  tzOffsetMin : Int
deriving DecidableEq

/-- The `Asia/Ho_Chi_Minh` offset (UTC+7). -/
def vnOffsetMin : Int := 420

/-- A feed entry as used by `fetch_new_items`: `title`, `link`, and the
optional parsed timestamps (`none` models both an absent key and a falsy
value). -/
structure RssEntry where
  title : Str
  link : Str
  published_parsed : Option TimeTuple
  updated_parsed : Option TimeTuple
deriving DecidableEq

/-- Function `parse_date` from `src/main.py`.  `nowEpoch` is the current instant used
by the `datetime.now` fallbacks. -/
def parse_date (e : RssEntry) (nowEpoch : Int) : PDateTime :=
  match e.published_parsed with
  | some t =>
    match mkUtc t with
    | some ep => { epoch := ep, tzOffsetMin := vnOffsetMin }
    | none => { epoch := nowEpoch, tzOffsetMin := vnOffsetMin }
  | none =>
    match e.updated_parsed with
    | some t =>
      match mkUtc t with
      | some ep => { epoch := ep, tzOffsetMin := vnOffsetMin }
      | none => { epoch := nowEpoch, tzOffsetMin := vnOffsetMin }
    | none => { epoch := nowEpoch, tzOffsetMin := vnOffsetMin }

/-!
Section: The seen-link store (`load_sent` / `save_sent`)

The backing is a newline-delimited text file; `save_sent` appends
`link.strip()` as one line.  `load_sent` returns the empty set when the file
does not exist; when it exists it reads it with no exception handler, so an
unreadable or undecodable file raises out of `load_sent`.
-/

/-- The durable backing of the seen-link store as observed by one read. -/
inductive FileBacking where
  | absent
  | unreadable
  | content (lines : List Str)
deriving DecidableEq

/-- Success-path body of `load_sent`:
`set(line.strip() for line in f if line.strip())`. -/
def loadSentLines (lines : List Str) : List Str :=
  (lines.map pstrip).filter (fun l => !l.isEmpty)

/-- Function `load_sent` from `src/main.py`, including its failure behaviour. -/
def load_sent : FileBacking → Except Unit (List Str)
  | .absent => .ok []
  | .unreadable => .error ()
  | .content lines => .ok (loadSentLines lines)

/-!
Section: The collection passes
-/

/-- An accepted item as appended to `new_items` / `new_videos`. -/
structure Item where
  title : Str
  link : Str
  date : PDateTime
  source : Str
deriving DecidableEq

/-- Substring membership, as in `"youtube.com" in link`. -/
def hasPrefixL : Str → Str → Bool
  | _, [] => true
  | [], _ :: _ => false
  | c :: ts, p :: ps => c == p && hasPrefixL ts ps

def containsSub : Str → Str → Bool
  | [], needle => needle.isEmpty
  | c :: ts, needle => hasPrefixL (c :: ts) needle || containsSub ts needle

/-- Stable insertion keeping items in non-increasing `date` order; an item
is placed before the first strictly-older item, after equals (matching the
stability of Python's `sort`/`sorted` with `reverse=True`). -/
def insertByDate (x : Item) : List Item → List Item
  | [] => [x]
  | y :: ys => if y.date.epoch ≤ x.date.epoch then x :: y :: ys else y :: insertByDate x ys

/-- Python `sort(key=lambda x: x["date"], reverse=True)`. -/
def sortDesc (l : List Item) : List Item := l.foldr insertByDate []

/-- The in-pass mutable state of `fetch_new_items`: the `seen_titles` set,
the store file (which `save_sent` appends to), and the `new_items` list. -/
structure PassState where
  seenTitles : List Str
  file : List Str
  items : List Item

/-- The body of the entry loop of `fetch_new_items`, one entry at a time.
`sentLinks` is the set loaded once at the start of the pass (the source
never adds to it during the pass — `save_sent` only writes the file).
The source computes `age_min = (now - pub).total_seconds() / 60` and gates
on `age_min <= 5`; division by the positive constant 60 is order-preserving,
so over integer epoch seconds this is exactly `now - pub ≤ 5 * 60`. -/
def processEntry (now cutoff : Int) (sentLinks : List Str) (src : Str)
    (st : PassState) (e : RssEntry) : PassState :=
  let title := pstrip e.title
  if title = [] then st
  else
    let link := normalize_link e.link
    let normTitle := normalize_title title
    if link ∈ sentLinks ∨ normTitle ∈ st.seenTitles then st
    else
      let pub := parse_date e now
      let ageSec := now - pub.epoch
      if kwSearchRss title = false then st
      else if containsSub link (String.toList "youtube.com") = true ∧ title = [] then st
      else if pub.epoch < cutoff then st
      else if ageSec ≤ 5 * 60 then
        { seenTitles := normTitle :: st.seenTitles,
          file := st.file ++ [pstrip link],
          items := st.items ++ [{ title := title, link := link, date := pub, source := src }] }
      else st

/-- Function `fetch_new_items(hours)` over pre-fetched feed entries: `feeds` lists
each source with the entries its fetch produced (a failed fetch contributes
an empty list).  Returns the accepted items, sorted most-recent first, and
the final store file. -/
def fetch_new_items (hours now : Int) (file0 : List Str)
    (feeds : List (Str × List RssEntry)) : List Item × List Str :=
  let cutoff := now - hours * 3600
  let sentLinks := loadSentLines file0
  let st := feeds.foldl
    (fun st feed => feed.2.foldl (processEntry now cutoff sentLinks feed.1) st)
    { seenTitles := [], file := file0, items := [] }
  (sortDesc st.items, st.file)

/-- A TikTok video object as consumed by the filter loop of
`fetch_tiktok_videos`. -/
structure TikTokVideo where
  title : Option Str
  desc : Str
  webVideoUrl : Option Str
  createTime : Option Int
deriving DecidableEq

/-- One iteration of the video filter loop of `fetch_tiktok_videos`.
The state is the store file and the `new_videos` list. -/
def tiktokStep (now : Int) (sentLinks : List Str) (st : List Str × List Item)
    (v : TikTokVideo) : List Str × List Item :=
  let title := match v.title with
    | some t => if t = [] then v.desc else t
    | none => v.desc
  let link := match v.webVideoUrl with
    | some u => u
    | none => []
  let pubTime := v.createTime.getD 0
  let ageSec := now - pubTime
  if link = [] ∨ link ∈ sentLinks then st
  else if kwSearchTiktok title = false then st
  else if ageSec > 72 * 60 * 60 then st
  else
    (st.1 ++ [pstrip link],
      st.2 ++ [{ title := title, link := link,
                 date := { epoch := pubTime, tzOffsetMin := vnOffsetMin },
                 source := String.toList "TikTok" }])

/-- Function `fetch_tiktok_videos` over the already-concatenated API results
(`data_all`).  It reloads the store file, so links saved by an earlier RSS
sweep are visible.  Returns the accepted videos (unsorted) and the final
store file. -/
def fetch_tiktok_videos (now : Int) (file0 : List Str) (videos : List TikTokVideo) :
    List Item × List Str :=
  let sentLinks := loadSentLines file0
  let st := videos.foldl (tiktokStep now sentLinks) (file0, [])
  (st.2, st.1)

/-- The items announced by one `job_realtime_check` pass, in announcement
order: the merged RSS and TikTok results sorted most-recent first. -/
def job_realtime_items (now : Int) (file0 : List Str)
    (feeds : List (Str × List RssEntry)) (videos : List TikTokVideo) : List Item :=
  let rss := fetch_new_items 72 now file0 feeds
  let tik := fetch_tiktok_videos now rss.2 videos
  sortDesc (rss.1 ++ tik.1)

/-! ### Lemmas about the sort -/

theorem insertByDate_cons (x y : Item) (ys : List Item) :
    insertByDate x (y :: ys) =
      if y.date.epoch ≤ x.date.epoch then x :: y :: ys else y :: insertByDate x ys := rfl

theorem insertByDate_perm (x : Item) : ∀ l : List Item, (insertByDate x l).Perm (x :: l) := by
  intro l
  induction l with
  | nil => exact List.Perm.refl _
  | cons y ys ih =>
    rw [insertByDate_cons]
    split_ifs with h
    · exact List.Perm.refl _
    · exact (ih.cons y).trans (List.Perm.swap x y ys)

theorem sortDesc_perm : ∀ l : List Item, (sortDesc l).Perm l := by
  intro l
  induction l with
  | nil => exact List.Perm.refl _
  | cons x xs ih =>
    show (insertByDate x (sortDesc xs)).Perm (x :: xs)
    exact (insertByDate_perm x (sortDesc xs)).trans (ih.cons x)

theorem insertByDate_pairwise {x : Item} : ∀ {l : List Item},
    l.Pairwise (fun a b => b.date.epoch ≤ a.date.epoch) →
    (insertByDate x l).Pairwise (fun a b => b.date.epoch ≤ a.date.epoch) := by
  intro l
  induction l with
  | nil => intro _; simp [insertByDate]
  | cons y ys ih =>
    intro h
    rw [List.pairwise_cons] at h
    obtain ⟨hy, hys⟩ := h
    rw [insertByDate_cons]
    split_ifs with hle
    · rw [List.pairwise_cons]
      refine ⟨?_, List.pairwise_cons.mpr ⟨hy, hys⟩⟩
      intro z hz
      rcases List.mem_cons.mp hz with rfl | hz'
      · exact hle
      · exact le_trans (hy z hz') hle
    · rw [List.pairwise_cons]
      refine ⟨?_, ih hys⟩
      intro z hz
      have hz2 := (insertByDate_perm x ys).mem_iff.mp hz
      rcases List.mem_cons.mp hz2 with rfl | hz'
      · exact le_of_lt (lt_of_not_le hle)
      · exact hy z hz'

theorem sortDesc_sorted : ∀ l : List Item,
    (sortDesc l).Pairwise (fun a b => b.date.epoch ≤ a.date.epoch) := by
  intro l
  induction l with
  | nil => simp [sortDesc]
  | cons x xs ih => exact insertByDate_pairwise ih

/-! ### Invariants of the entry loop -/

theorem foldl_inv {α β : Type _} {P : α → Prop} (f : α → β → α)
    (hf : ∀ a b, P a → P (f a b)) : ∀ (l : List β) (a : α), P a → P (l.foldl f a) := by
  intro l
  induction l with
  | nil => intro a h; exact h
  | cons x xs ih => intro a h; exact ih (f a x) (hf a x h)

/-- Every iteration of the entry loop either leaves the state unchanged or
accepts the entry: the accepted record's normalized title was absent from
`seen_titles` and its age is at most five minutes. -/
theorem processEntry_cases (now cutoff : Int) (sentLinks : List Str) (src : Str)
    (st : PassState) (e : RssEntry) :
    processEntry now cutoff sentLinks src st e = st ∨
      (normalize_title (pstrip e.title) ∉ st.seenTitles ∧
        now - (parse_date e now).epoch ≤ 5 * 60 ∧
        processEntry now cutoff sentLinks src st e =
          { seenTitles := normalize_title (pstrip e.title) :: st.seenTitles,
            file := st.file ++ [pstrip (normalize_link e.link)],
            items := st.items ++ [{ title := pstrip e.title, link := normalize_link e.link,
                                    date := parse_date e now, source := src }] }) := by
  by_cases h1 : pstrip e.title = []
  · left; simp [processEntry, h1]
  · by_cases h2 : normalize_link e.link ∈ sentLinks
        ∨ normalize_title (pstrip e.title) ∈ st.seenTitles
    · left; simp [processEntry, h1, h2]
    · by_cases h3 : kwSearchRss (pstrip e.title) = false
      · left; simp [processEntry, h1, h2, h3]
      · by_cases h4 : containsSub (normalize_link e.link) (String.toList "youtube.com") = true
            ∧ pstrip e.title = []
        · left; simp [processEntry, h1, h2, h3, h4]
        · by_cases h5 : (parse_date e now).epoch < cutoff
          · left; simp [processEntry, h1, h2, h3, h4, h5]
          · by_cases h6 : now - (parse_date e now).epoch ≤ 5 * 60
            · right
              refine ⟨fun hmem => h2 (Or.inr hmem), h6, ?_⟩
              simp [processEntry, h1, h2, h3, h4, h5, h6]
              intro hcon
              exact absurd h6 (by omega)
            · left
              simp [processEntry, h1, h2, h3, h4, h5, h6]
              intro hcon
              exact absurd hcon (by omega)

/-- In-pass title-dedup invariant: the accepted items carry pairwise
distinct normalized titles, all recorded in `seen_titles`. -/
def titlesOK (st : PassState) : Prop :=
  st.items.Pairwise (fun a b => normalize_title a.title ≠ normalize_title b.title)
    ∧ ∀ it ∈ st.items, normalize_title it.title ∈ st.seenTitles

theorem processEntry_titlesOK {now cutoff : Int} {sentLinks : List Str} {src : Str}
    {st : PassState} {e : RssEntry} (h : titlesOK st) :
    titlesOK (processEntry now cutoff sentLinks src st e) := by
  rcases processEntry_cases now cutoff sentLinks src st e with heq | ⟨hnot, -, heq⟩
  · rw [heq]; exact h
  · rw [heq]
    obtain ⟨hpw, hmem⟩ := h
    constructor
    · refine List.pairwise_append.mpr ⟨hpw, by simp, ?_⟩
      intro a ha b hb
      simp only [List.mem_singleton] at hb
      subst hb
      intro hcontra
      exact hnot (hcontra ▸ hmem a ha)
    · intro it hit
      rcases List.mem_append.mp hit with hold | hnew
      · exact List.mem_cons_of_mem _ (hmem it hold)
      · simp only [List.mem_singleton] at hnew
        subst hnew
        exact List.mem_cons_self _ _

/-- Recency invariant: every accepted item is at most five minutes old. -/
def ageOK (now : Int) (st : PassState) : Prop :=
  ∀ it ∈ st.items, now - it.date.epoch ≤ 5 * 60

theorem processEntry_ageOK {now cutoff : Int} {sentLinks : List Str} {src : Str}
    {st : PassState} {e : RssEntry} (h : ageOK now st) :
    ageOK now (processEntry now cutoff sentLinks src st e) := by
  rcases processEntry_cases now cutoff sentLinks src st e with heq | ⟨-, hage, heq⟩
  · rw [heq]; exact h
  · rw [heq]
    intro it hit
    rcases List.mem_append.mp hit with hold | hnew
    · exact h it hold
    · simp only [List.mem_singleton] at hnew
      subst hnew
      exact hage

/-!
Section: Concrete scenario data

`T0` is 2025-06-10 12:00:00 UTC; the entries below publish at fixed offsets
from it.  All titles contain the brand keyword and all links are fresh
unless a scenario says otherwise.
-/

def T0 : Int := 1749556800

def tupFresh : TimeTuple := ⟨2025, 6, 10, 12, 0, 0⟩

def tup47 : TimeTuple := ⟨2025, 6, 8, 13, 0, 0⟩

def tup49 : TimeTuple := ⟨2025, 6, 8, 11, 0, 0⟩

def tup4m : TimeTuple := ⟨2025, 6, 10, 11, 56, 0⟩

def tup6m : TimeTuple := ⟨2025, 6, 10, 11, 54, 0⟩

def srcG : Str := String.toList "Google News"

def eFresh : RssEntry :=
  ⟨String.toList "Miza fresh news", String.toList "https://s/f", some tupFresh, none⟩

def e47 : RssEntry :=
  ⟨String.toList "Miza window test", String.toList "https://s/47", some tup47, none⟩

def e49 : RssEntry :=
  ⟨String.toList "Miza old story", String.toList "https://s/49", some tup49, none⟩

def e4m : RssEntry :=
  ⟨String.toList "Miza alpha", String.toList "https://s/4m", some tup4m, none⟩

def e6m : RssEntry :=
  ⟨String.toList "Miza beta", String.toList "https://s/6m", some tup6m, none⟩

def eDup : RssEntry :=
  ⟨String.toList "Miza update", String.toList "https://x/a&utm_source=y", some tupFresh, none⟩

def eA : RssEntry :=
  ⟨String.toList "Miza A", String.toList "https://m/x", some tupFresh, none⟩

def eB : RssEntry :=
  ⟨String.toList "Miza B", String.toList "https://m/x", some tupFresh, none⟩

def eKw : RssEntry :=
  ⟨String.toList "New MZGcoin launches", String.toList "https://s/kw", some tupFresh, none⟩

def itemFresh : Item :=
  ⟨String.toList "Miza fresh news", String.toList "https://s/f",
    ⟨T0, vnOffsetMin⟩, srcG⟩

def item4m : Item :=
  ⟨String.toList "Miza alpha", String.toList "https://s/4m",
    ⟨T0 - 240, vnOffsetMin⟩, srcG⟩

/-!
Section: Claim theorems
-/

/-- Claim C1 (counterexample): one `job_realtime_check` pass over a feed
with two fresh entries that share a link but differ in title accepts both,
so the accepted items' normalized links are not pairwise distinct (the
in-memory seen-link set is never updated during a pass). -/
theorem c1_counterexample :
    ((job_realtime_items T0 [] [(srcG, [eA, eB])] []).map Item.link)
      = [String.toList "https://m/x", String.toList "https://m/x"] := by decide

/-- Claim C1 (amended): within one collection pass, the RSS sweep's accepted
items have pairwise distinct normalized titles (the in-pass `seen_titles`
set guarantees this); distinctness of normalized links is not guaranteed. -/
theorem c1_amended_rss_title_dedup (hours now : Int) (file0 : List Str)
    (feeds : List (Str × List RssEntry)) :
    ((fetch_new_items hours now file0 feeds).1).Pairwise
      (fun a b => normalize_title a.title ≠ normalize_title b.title) := by
  simp only [fetch_new_items]
  refine ((sortDesc_perm _).pairwise_iff (fun hab => fun heq => hab heq.symm)).mpr ?_
  exact (foldl_inv _
    (fun a b ha => foldl_inv _ (fun a' b' ha' => processEntry_titlesOK ha') b.2 a ha)
    feeds ⟨[], file0, []⟩ ⟨List.Pairwise.nil, by simp⟩).1

/-- Witness for the amended C1 at a concrete pass. -/
theorem c1_witness :
    ((fetch_new_items 72 T0 [] [(srcG, [eA, eB])]).1).Pairwise
      (fun a b => normalize_title a.title ≠ normalize_title b.title) :=
  c1_amended_rss_title_dedup 72 T0 [] [(srcG, [eA, eB])]

/-- Claim C2 (counterexample): the implemented keyword pattern has no word
boundaries.  In "New MZGcoin launches" the alias `MZG` occurs only inside the
longer token `MZGcoin` — the spec's word-boundary matcher rejects the text —
yet `keyword_pattern.search` matches it. -/
theorem c2_counterexample :
    kwSearchRss (String.toList "New MZGcoin launches") = true ∧
      kwSearchRssSpecWB (String.toList "New MZGcoin launches") = false := by decide

/-- Claim C2 (amended): the matcher performs plain substring alternation
matching: a title whose only occurrence of an alias is embedded in a larger
token is matched, and such an entry is accepted by the collection pass. -/
theorem c2_amended_substring_match :
    kwSearchRss (String.toList "New MZGcoin launches") = true ∧
      (fetch_new_items 72 T0 [] [(srcG, [eKw])]).1 =
        [⟨String.toList "New MZGcoin launches", String.toList "https://s/kw",
          ⟨T0, vnOffsetMin⟩, srcG⟩] := by decide

/-- Claim C4: with the store already containing "https://x/a", an entry whose
raw link is "https://x/a&utm_source=y" is rejected as a duplicate after
normalization: it is not accepted and the store file is unchanged. -/
theorem c4_duplicate_after_normalization :
    (fetch_new_items 72 T0 [String.toList "https://x/a"] [(srcG, [eDup])]).1 = [] ∧
      (fetch_new_items 72 T0 [String.toList "https://x/a"] [(srcG, [eDup])]).2 =
        [String.toList "https://x/a"] := by decide

/-- Claim C5 (counterexample): with a 48-hour window, an entry published at
`T0 - 47h` that passes the keyword and dedup checks is NOT accepted — the
5-minute recency gate of `fetch_new_items` rejects it, contrary to the
claim. -/
theorem c5_counterexample :
    (fetch_new_items 48 T0 [] [(srcG, [e47])]).1 = [] := by decide

/-- Claim C5 (amended): with a 48-hour window, an entry published at
`T0 - 49h` is rejected, and an entry at `T0 - 47h` passing keyword and dedup
checks is also rejected because acceptance additionally requires an age of
at most 5 minutes; an otherwise-passing entry inside the recency gate is
accepted. -/
theorem c5_amended_window_and_recency :
    (fetch_new_items 48 T0 [] [(srcG, [e49, e47, eFresh])]).1 = [itemFresh] := by decide

/-- Claim C6: with the 5-minute recency threshold, an entry published at
`T0 - 4min` passes the gate and is accepted, while an entry published at
`T0 - 6min` is not accepted even though it passes the window, dedup and
keyword checks. -/
theorem c6_recency_gate :
    (fetch_new_items 72 T0 [] [(srcG, [e4m, e6m])]).1 = [item4m] := by decide

/-- Claim C7 (counterexample): `load_sent` handles only the file-missing
case; an existing but unreadable (or undecodable) backing raises out of it
instead of yielding the empty store. -/
theorem c7_counterexample :
    load_sent FileBacking.unreadable ≠ Except.ok [] := fun h => Except.noConfusion h

/-- Claim C7 (amended): absence of the backing file yields the empty store
and a readable backing yields its stripped nonempty lines, but read failures
on an existing file are unhandled (`load_sent` raises). -/
theorem c7_amended_absent_is_empty (lines : List Str) :
    load_sent FileBacking.absent = Except.ok [] ∧
      load_sent (FileBacking.content lines) = Except.ok (loadSentLines lines) ∧
      load_sent FileBacking.unreadable = Except.error () :=
  ⟨rfl, rfl, rfl⟩

/-- Witness for the amended C7 at a concrete backing. -/
theorem c7_witness :
    load_sent FileBacking.absent = Except.ok [] ∧
      load_sent (FileBacking.content [String.toList " a "]) =
        Except.ok (loadSentLines [String.toList " a "]) ∧
      load_sent FileBacking.unreadable = Except.error () :=
  c7_amended_absent_is_empty [String.toList " a "]

/-- Claim C8: `parse_date` uses the publication timestamp when present and
constructible, else the update timestamp, else the current time; the result
always carries the fixed target timezone; and whenever the datetime
construction raises, the current time is returned instead of failing. -/
theorem c8_parse_date_fallback (e : RssEntry) (now : Int) :
    (parse_date e now).tzOffsetMin = vnOffsetMin
    ∧ (∀ t ep, e.published_parsed = some t → mkUtc t = some ep →
        (parse_date e now).epoch = ep)
    ∧ (∀ t ep, e.published_parsed = none → e.updated_parsed = some t → mkUtc t = some ep →
        (parse_date e now).epoch = ep)
    ∧ (e.published_parsed = none → e.updated_parsed = none → (parse_date e now).epoch = now)
    ∧ (∀ t, e.published_parsed = some t → mkUtc t = none → (parse_date e now).epoch = now)
    ∧ (∀ t, e.published_parsed = none → e.updated_parsed = some t → mkUtc t = none →
        (parse_date e now).epoch = now) := by
  refine ⟨?_, ?_, ?_, ?_, ?_, ?_⟩
  · cases hp : e.published_parsed with
    | some t0 => cases hm : mkUtc t0 <;> simp [parse_date, hp, hm]
    | none =>
      cases hu : e.updated_parsed with
      | some t0 => cases hm : mkUtc t0 <;> simp [parse_date, hp, hu, hm]
      | none => simp [parse_date, hp, hu]
  · intro t ep hp hm
    simp [parse_date, hp, hm]
  · intro t ep hp hu hm
    simp [parse_date, hp, hu, hm]
  · intro hp hu
    simp [parse_date, hp, hu]
  · intro t hp hm
    simp [parse_date, hp, hm]
  · intro t hp hu hm
    simp [parse_date, hp, hu, hm]

/-- Witness for C8: an entry whose publication tuple has month 13 makes the
construction raise, and `parse_date` returns the current time. -/
theorem c8_witness :
    (parse_date ⟨[], [], some ⟨2025, 13, 1, 0, 0, 0⟩, none⟩ 7).epoch = 7 :=
  (c8_parse_date_fallback ⟨[], [], some ⟨2025, 13, 1, 0, 0, 0⟩, none⟩ 7).2.2.2.2.1
    ⟨2025, 13, 1, 0, 0, 0⟩ rfl (by decide)

/-- Claim C9: the per-pass results are sorted most-recent first: both the
list returned by `fetch_new_items` and the merged list iterated by
`job_realtime_check` are non-increasing in the publication instant. -/
theorem c9_results_sorted_desc (hours now : Int) (file0 : List Str)
    (feeds : List (Str × List RssEntry)) (videos : List TikTokVideo) :
    ((fetch_new_items hours now file0 feeds).1).Pairwise
        (fun a b => b.date.epoch ≤ a.date.epoch)
      ∧ (job_realtime_items now file0 feeds videos).Pairwise
        (fun a b => b.date.epoch ≤ a.date.epoch) := by
  constructor
  · simp only [fetch_new_items]
    exact sortDesc_sorted _
  · simp only [job_realtime_items]
    exact sortDesc_sorted _

/-- Witness for C9 at a concrete pass. -/
theorem c9_witness :
    ((fetch_new_items 72 T0 [] [(srcG, [e4m, e6m])]).1).Pairwise
        (fun a b => b.date.epoch ≤ a.date.epoch)
      ∧ (job_realtime_items T0 [] [(srcG, [e4m, e6m])] []).Pairwise
        (fun a b => b.date.epoch ≤ a.date.epoch) :=
  c9_results_sorted_desc 72 T0 [] [(srcG, [e4m, e6m])] []

/-- Claim C10: for any window `hours` with `hours * 60 ≥ 5`, every item
accepted by the RSS collection pass was at most 5 minutes old when its
filters ran: the recency gate, not the hour window, is the binding
constraint. -/
theorem c10_recency_always_binds (hours now : Int) (file0 : List Str)
    (feeds : List (Str × List RssEntry)) (_hw : 5 ≤ hours * 60) :
    ∀ it ∈ (fetch_new_items hours now file0 feeds).1,
      ((now - it.date.epoch : Int) : ℚ) / 60 ≤ 5 := by
  intro it hit
  simp only [fetch_new_items] at hit
  have hit' := (sortDesc_perm _).mem_iff.mp hit
  have hstep : ∀ (a : PassState) (b : Str × List RssEntry), ageOK now a →
      ageOK now (b.2.foldl (processEntry now (now - hours * 3600) (loadSentLines file0) b.1) a) :=
    fun a b ha => foldl_inv _ (fun a' b' ha' => processEntry_ageOK ha') b.2 a ha
  have hfold : ageOK now
      (feeds.foldl (fun st feed =>
        feed.2.foldl (processEntry now (now - hours * 3600) (loadSentLines file0) feed.1) st)
        ⟨[], file0, []⟩) :=
    foldl_inv _ hstep feeds ⟨[], file0, []⟩ (fun x hx => by simp at hx)
  have hInt : now - it.date.epoch ≤ 5 * 60 := hfold it hit'
  rw [div_le_iff₀ (by norm_num : (0 : ℚ) < 60)]
  exact_mod_cast hInt

/-- Witness for C10: the 72-hour realtime pass accepts `eFresh`, and its age
is within the 5-minute gate. -/
theorem c10_witness :
    (5 : Int) ≤ 72 * 60 ∧ ((T0 - itemFresh.date.epoch : Int) : ℚ) / 60 ≤ 5 :=
  ⟨by norm_num,
    c10_recency_always_binds 72 T0 [] [(srcG, [eFresh])] (by norm_num) itemFresh (by decide)⟩

end Miza
